import Mathlib

/-!
Verification of the adversarial-search engine in `AIND-planning/game_agent.py.py`
(the `GamePlayer` class: `get_move`, `minimax`, `alphabeta`, `max_value`,
`min_value`, plus the module-level helpers `custom_score`,
`custom_score_weight` and `use_alpha_beta_pruning`).

The board is an external collaborator; the engine only calls
`get_legal_moves`, `forecast_move`, `get_opponent`, `is_loser`, `is_winner`.
We embed it as a structure of functions over opaque `Pos` and `Player` types.

Search values are floats extended with the two infinities in the source;
we embed them as rationals with a bottom (`float("-inf")`) and a top
(`float("inf")`) element.

The wall-clock timeout (`should_timeout` / `Timeout`) is embedded as a tick
clock: every entry to `max_value` / `min_value` consumes one tick, and a call
entered with an exhausted clock raises (returns `.error ()`), mirroring the
cooperative cancellation check at the top of both functions.  The
never-cancelled runs are embedded separately as the pure functions
`max_value` / `min_value` (no clock), which agree with the clocked ones on
every run that completes.
-/

set_option linter.unusedVariables false

/-- Moves are coordinate pairs; `(-1, -1)` is the sentinel "no move". -/
abbrev Move := Int × Int

/-- The sentinel move `(-1, -1)` from the source. -/
def noMove : Move := (-1, -1)

/-- Search values: rationals extended with `float("-inf")` (`⊥`) and
`float("inf")` (`⊤`). -/
abbrev SearchValue := WithBot (WithTop ℚ)

/-- Embed a finite score. -/
def val (q : ℚ) : SearchValue := ((q : WithTop ℚ) : SearchValue)

/-- The external board collaborator: exactly the five methods the engine
calls on `isolation.Board`. -/
structure Board (Pos Player : Type) where
  get_legal_moves : Pos → Player → List Move
  forecast_move : Pos → Move → Pos
  get_opponent : Player → Player
  is_loser : Pos → Player → Bool
  is_winner : Pos → Player → Bool

/-- Source lines 27-36: `custom_score_weight(game, player, my_weight, opp_weight)`. -/
def custom_score_weight {Pos Player : Type} (B : Board Pos Player) (pos : Pos)
    (player : Player) (my_weight opp_weight : ℚ) : SearchValue :=
  if B.is_loser pos player then ⊥
  else if B.is_winner pos player then ⊤
  else
    val (my_weight * ((B.get_legal_moves pos player).length : ℚ) -
      opp_weight * ((B.get_legal_moves pos (B.get_opponent player)).length : ℚ))

/-- Source lines 8-24: `custom_score(game, player)`; the float literal `1.5`
is exactly `3/2`. -/
def custom_score {Pos Player : Type} (B : Board Pos Player) (pos : Pos)
    (player : Player) : SearchValue :=
  custom_score_weight B pos player 1 (3 / 2)

/-- Source lines 39-40: `use_alpha_beta_pruning(alpha, beta)` is
`alpha is not None and beta is not None`. -/
def use_alpha_beta_pruning (alpha beta : Option SearchValue) : Bool :=
  alpha.isSome && beta.isSome

section Search

variable {Pos Player : Type} (B : Board Pos Player) (self : Player)
variable (score : Pos → Player → SearchValue)

/-- The `for move in available_my_moves` loop of `max_value`
(source lines 152-162), with the running `utility_score`, `next_move` and the
(possibly tightened) `alpha` as explicit state.  The two-`some` branch of the
match is exactly the `use_alpha_beta_pruning(alpha, beta)` guard. -/
def maxLoop (child : Pos → Option SearchValue → Option SearchValue → SearchValue × Move)
    (fc : Pos → Move → Pos) (pos : Pos) :
    List Move → SearchValue → Move → Option SearchValue → Option SearchValue →
      SearchValue × Move
  | [], utility_score, next_move, _, _ => (utility_score, next_move)
  | move :: ms, utility_score, next_move, alpha, beta =>
    let next_score := (child (fc pos move) alpha beta).1
    let utility' := if utility_score < next_score then next_score else utility_score
    let move' := if utility_score < next_score then move else next_move
    match alpha, beta with
    | some a, some b =>
      if b ≤ utility' then (utility', move')
      else maxLoop child fc pos ms utility' move' (some (max a utility')) (some b)
    | alpha, beta => maxLoop child fc pos ms utility' move' alpha beta

/-- The `for move in available_opponent_moves` loop of `min_value`
(source lines 175-183). -/
def minLoop (child : Pos → Option SearchValue → Option SearchValue → SearchValue × Move)
    (fc : Pos → Move → Pos) (pos : Pos) :
    List Move → SearchValue → Move → Option SearchValue → Option SearchValue →
      SearchValue × Move
  | [], utility_score, next_move, _, _ => (utility_score, next_move)
  | move :: ms, utility_score, next_move, alpha, beta =>
    let next_score := (child (fc pos move) alpha beta).1
    let utility' := if next_score < utility_score then next_score else utility_score
    let move' := if next_score < utility_score then move else next_move
    match alpha, beta with
    | some a, some b =>
      if utility' ≤ a then (utility', move')
      else minLoop child fc pos ms utility' move' (some a) (some (min b utility'))
    | alpha, beta => minLoop child fc pos ms utility' move' alpha beta

mutual

/-- Source lines 142-163: `max_value(game, depth, alpha, beta)`, never
cancelled (the `should_timeout` branch is not taken on an uncancelled run). -/
def max_value : Pos → Nat → Option SearchValue → Option SearchValue → SearchValue × Move
  | pos, 0, _, _ => (score pos self, noMove)
  | pos, depth + 1, alpha, beta =>
    maxLoop (fun p a b => min_value p depth a b) B.forecast_move pos
      (B.get_legal_moves pos self) ⊥ noMove alpha beta

/-- Source lines 165-184: `min_value(game, depth, alpha, beta)`, never
cancelled. -/
def min_value : Pos → Nat → Option SearchValue → Option SearchValue → SearchValue × Move
  | pos, 0, _, _ => (score pos self, noMove)
  | pos, depth + 1, alpha, beta =>
    minLoop (fun p a b => max_value p depth a b) B.forecast_move pos
      (B.get_legal_moves pos (B.get_opponent self)) ⊤ noMove alpha beta

end

/-- Source lines 87-110: `minimax(game, depth, maximizing_player)`; the bounds
are absent (`None`, `None`) in both recursive entry points. -/
def minimax (pos : Pos) (depth : Nat) (maximizing_player : Bool) : SearchValue × Move :=
  if maximizing_player then max_value B self score pos depth none none
  else min_value B self score pos depth none none

/-- Source lines 112-140: `alphabeta(game, depth, alpha, beta,
maximizing_player)` at its default bounds `alpha = float("-inf")`,
`beta = float("inf")`. -/
def alphabeta (pos : Pos) (depth : Nat) (maximizing_player : Bool) : SearchValue × Move :=
  if maximizing_player then max_value B self score pos depth (some ⊥) (some ⊤)
  else min_value B self score pos depth (some ⊥) (some ⊤)

/-- Reference exhaustive maximizing loop: no bounds, every sibling visited. -/
def mmMaxLoop (child : Pos → SearchValue × Move) (fc : Pos → Move → Pos) (pos : Pos) :
    List Move → SearchValue → Move → SearchValue × Move
  | [], utility_score, next_move => (utility_score, next_move)
  | move :: ms, utility_score, next_move =>
    let next_score := (child (fc pos move)).1
    mmMaxLoop child fc pos ms
      (if utility_score < next_score then next_score else utility_score)
      (if utility_score < next_score then move else next_move)

/-- Reference exhaustive minimizing loop: no bounds, every sibling visited. -/
def mmMinLoop (child : Pos → SearchValue × Move) (fc : Pos → Move → Pos) (pos : Pos) :
    List Move → SearchValue → Move → SearchValue × Move
  | [], utility_score, next_move => (utility_score, next_move)
  | move :: ms, utility_score, next_move =>
    let next_score := (child (fc pos move)).1
    mmMinLoop child fc pos ms
      (if next_score < utility_score then next_score else utility_score)
      (if next_score < utility_score then move else next_move)

mutual

/-- Reference plain minimax at a maximizing node: bound-free and exhaustive. -/
def mm_max : Pos → Nat → SearchValue × Move
  | pos, 0 => (score pos self, noMove)
  | pos, depth + 1 =>
    mmMaxLoop (fun p => mm_min p depth) B.forecast_move pos
      (B.get_legal_moves pos self) ⊥ noMove

/-- Reference plain minimax at a minimizing node. -/
def mm_min : Pos → Nat → SearchValue × Move
  | pos, 0 => (score pos self, noMove)
  | pos, depth + 1 =>
    mmMinLoop (fun p => mm_max p depth) B.forecast_move pos
      (B.get_legal_moves pos (B.get_opponent self)) ⊤ noMove

end

/-- Clocked `for`-loop of `max_value`: each child call threads the remaining
tick clock and may raise `Timeout` (`.error ()`), which propagates (the
source has no handler inside the search). -/
def loopTmax
    (child : Pos → Option SearchValue → Option SearchValue → Nat →
      Except Unit ((SearchValue × Move) × Nat))
    (fc : Pos → Move → Pos) (pos : Pos) :
    List Move → SearchValue → Move → Option SearchValue → Option SearchValue → Nat →
      Except Unit ((SearchValue × Move) × Nat)
  | [], utility_score, next_move, _, _, clock => .ok ((utility_score, next_move), clock)
  | move :: ms, utility_score, next_move, alpha, beta, clock =>
    match child (fc pos move) alpha beta clock with
    | .error e => .error e
    | .ok ((next_score, _), clock') =>
      let utility' := if utility_score < next_score then next_score else utility_score
      let move' := if utility_score < next_score then move else next_move
      match alpha, beta with
      | some a, some b =>
        if b ≤ utility' then .ok ((utility', move'), clock')
        else loopTmax child fc pos ms utility' move' (some (max a utility')) (some b) clock'
      | alpha, beta => loopTmax child fc pos ms utility' move' alpha beta clock'

/-- Clocked `for`-loop of `min_value`. -/
def loopTmin
    (child : Pos → Option SearchValue → Option SearchValue → Nat →
      Except Unit ((SearchValue × Move) × Nat))
    (fc : Pos → Move → Pos) (pos : Pos) :
    List Move → SearchValue → Move → Option SearchValue → Option SearchValue → Nat →
      Except Unit ((SearchValue × Move) × Nat)
  | [], utility_score, next_move, _, _, clock => .ok ((utility_score, next_move), clock)
  | move :: ms, utility_score, next_move, alpha, beta, clock =>
    match child (fc pos move) alpha beta clock with
    | .error e => .error e
    | .ok ((next_score, _), clock') =>
      let utility' := if next_score < utility_score then next_score else utility_score
      let move' := if next_score < utility_score then move else next_move
      match alpha, beta with
      | some a, some b =>
        if utility' ≤ a then .ok ((utility', move'), clock')
        else loopTmin child fc pos ms utility' move' (some a) (some (min b utility')) clock'
      | alpha, beta => loopTmin child fc pos ms utility' move' alpha beta clock'

mutual

/-- Source lines 142-163 with the cooperative timeout: `should_timeout()` is
"the tick clock is exhausted"; entering a node consumes one tick; a `.error`
is the raised `Timeout` unwinding every frame. -/
def max_valueT : Pos → Nat → Option SearchValue → Option SearchValue → Nat →
    Except Unit ((SearchValue × Move) × Nat)
  | _, _, _, _, 0 => .error ()
  | pos, 0, _, _, clock + 1 => .ok ((score pos self, noMove), clock)
  | pos, depth + 1, alpha, beta, clock + 1 =>
    loopTmax (fun p a b c => min_valueT p depth a b c) B.forecast_move pos
      (B.get_legal_moves pos self) ⊥ noMove alpha beta clock

/-- Source lines 165-184 with the cooperative timeout. -/
def min_valueT : Pos → Nat → Option SearchValue → Option SearchValue → Nat →
    Except Unit ((SearchValue × Move) × Nat)
  | _, _, _, _, 0 => .error ()
  | pos, 0, _, _, clock + 1 => .ok ((score pos self, noMove), clock)
  | pos, depth + 1, alpha, beta, clock + 1 =>
    loopTmin (fun p a b c => max_valueT p depth a b c) B.forecast_move pos
      (B.get_legal_moves pos (B.get_opponent self)) ⊤ noMove alpha beta clock

end

end Search

/-- The bounds the selected `search_method` passes to `max_value`
(source line 66 with the defaults of lines 87 and 112): `minimax` leaves both
absent, anything else is `alphabeta` with `float("-inf")`, `float("inf")`. -/
def method_bounds (method : String) : Option SearchValue × Option SearchValue :=
  if method = "minimax" then (none, none) else (some ⊥, some ⊤)

section Engine

variable {Pos Player : Type} (B : Board Pos Player) (self : Player)
variable (score : Pos → Player → SearchValue)

/-- The `while True` iterative-deepening loop of `get_move`
(source lines 72-77): run the search at `current_depth`; on `Timeout` stop,
keeping the move recorded from the last completed depth; on completion record
the new move and retry one ply deeper.  The loop exits only through
`Timeout`; the `fuel` argument is an artifact of totality, never the reason
the loop stops (`idLoop_fuel_irrel` below), and `get_move` supplies more fuel
than the clock has ticks. -/
def idLoop (pos : Pos) (ab : Option SearchValue × Option SearchValue) :
    Nat → Nat → Nat → Move → Move
  | 0, _, _, move => move
  | fuel + 1, clock, current_depth, move =>
    match max_valueT B self score pos current_depth ab.1 ab.2 clock with
    | .error _ => move
    | .ok ((_, mv), clock') => idLoop pos ab fuel clock' (current_depth + 1) mv

/-- Source lines 57-85: `get_move(game, legal_moves, time_left)`, with the
configuration (`iterative`, `search_depth`, `method`) and the tick clock
explicit.  The `legal_moves` argument is received and, as in the source,
never consulted.  `move` starts at the sentinel, the `try` block runs either
the `while True` loop from depth 1 or one fixed-depth search, and `except
Timeout: pass` leaves the recorded move to be returned. -/
def get_move (pos : Pos) (legal_moves : List Move) (iterative : Bool)
    (search_depth : Nat) (method : String) (clock : Nat) : Move :=
  let ab := method_bounds method
  let move : Move := noMove
  if iterative then
    idLoop B self score pos ab (clock + 1) clock 1 move
  else
    match max_valueT B self score pos search_depth ab.1 ab.2 clock with
    | .error _ => move
    | .ok ((_, mv), _) => mv

/-- Run the searches of `k` consecutive depths starting at `depth` from the
given clock, as the iterative-deepening loop does, returning the last
completed move and the remaining clock, or `none` if any of them times out. -/
def runFrom (pos : Pos) (ab : Option SearchValue × Option SearchValue) :
    Nat → Nat → Nat → Move → Option (Move × Nat)
  | 0, _, clock, move => some (move, clock)
  | k + 1, depth, clock, move =>
    match max_valueT B self score pos depth ab.1 ab.2 clock with
    | .error _ => none
    | .ok ((_, mv), clock') => runFrom pos ab k (depth + 1) clock' mv

/-- Depths `1, 2, ..., n` run to completion from the given clock, as in the
iterative-deepening loop; `runDepths 0` is "no depth ever completed" and
carries the sentinel move. -/
def runDepths (pos : Pos) (ab : Option SearchValue × Option SearchValue)
    (n clock : Nat) : Option (Move × Nat) :=
  runFrom B self score pos ab n 1 clock noMove

end Engine

/-! Concrete instances used as witnesses and counterexamples. -/

/-- A board on which no side ever has a legal move. -/
def cexBoard : Board Unit Unit :=
  ⟨fun _ _ => [], fun _ _ => (), fun _ => (), fun _ _ => false, fun _ _ => false⟩

/-- A constant finite evaluator. -/
def cexScore : Unit → Unit → SearchValue := fun _ _ => val 0

/-- A board whose `is_loser` and `is_winner` flags are both set. -/
def bothBoard : Board Unit Unit :=
  ⟨fun _ _ => [], fun _ _ => (), fun _ => (), fun _ _ => true, fun _ _ => true⟩

/-- A board with root position `0` and three root moves `A = (0,0)`,
`B = (0,1)`, `C = (0,2)` leading to positions `1`, `2`, `3`; no further
moves. -/
def exBoard : Board Nat Unit :=
  ⟨fun p _ => if p = 0 then [(0, 0), (0, 1), (0, 2)] else [],
   fun _ m => (m.2 + 1).toNat, fun _ => (), fun _ _ => false, fun _ _ => false⟩

/-- Evaluator scoring positions `1`, `2`, `3` as `q1`, `q2`, `q3`. -/
def exScore (q1 q2 q3 : ℚ) : Nat → Unit → SearchValue := fun p _ =>
  if p = 1 then val q1 else if p = 2 then val q2 else if p = 3 then val q3 else ⊥

/-- Fail-soft alpha-beta bound relation: how a result `r` computed inside
the window `(a, b)` approximates the true minimax value `v`: below the
window it is an upper bound on `v`, inside the window it is exact, above the
window it is a lower bound on `v`. -/
def approxOK (a b r v : SearchValue) : Prop :=
  (r ≤ a → v ≤ r) ∧ (a < r → r < b → r = v) ∧ (b ≤ r → r ≤ v)

/-! Basic order lemmas on the update step of the loops. -/

theorem if_lt_max (u s : SearchValue) : (if u < s then s else u) = max u s := by
  rcases lt_or_le u s with h | h
  · simp [h, max_eq_right h.le]
  · simp [not_lt.mpr h, max_eq_left h]

theorem if_lt_min (u s : SearchValue) : (if s < u then s else u) = min u s := by
  rcases lt_or_le s u with h | h
  · simp [h, min_eq_right h.le]
  · simp [not_lt.mpr h, min_eq_left h]

section SearchLemmas

variable {Pos Player : Type} (B : Board Pos Player) (self : Player)
variable (score : Pos → Player → SearchValue)

/-- The exhaustive maximizing loop with no bounds agrees with `maxLoop`
invoked with both bounds absent, for any pair of child functions that agree
in value on absent bounds. -/
theorem maxLoop_none_eq_mm
    (child : Pos → Option SearchValue → Option SearchValue → SearchValue × Move)
    (child' : Pos → SearchValue × Move) (fc : Pos → Move → Pos) (pos : Pos)
    (hc : ∀ p, (child p none none).1 = (child' p).1) :
    ∀ ms u best, maxLoop child fc pos ms u best none none =
      mmMaxLoop child' fc pos ms u best := by
  intro ms
  induction ms with
  | nil => intro u best; rfl
  | cons m ms ih =>
    intro u best
    simp only [maxLoop, mmMaxLoop, hc]
    exact ih _ _

/-- Dual of `maxLoop_none_eq_mm`. -/
theorem minLoop_none_eq_mm
    (child : Pos → Option SearchValue → Option SearchValue → SearchValue × Move)
    (child' : Pos → SearchValue × Move) (fc : Pos → Move → Pos) (pos : Pos)
    (hc : ∀ p, (child p none none).1 = (child' p).1) :
    ∀ ms u best, minLoop child fc pos ms u best none none =
      mmMinLoop child' fc pos ms u best := by
  intro ms
  induction ms with
  | nil => intro u best; rfl
  | cons m ms ih =>
    intro u best
    simp only [minLoop, mmMinLoop, hc]
    exact ih _ _

/-- With absent bounds the recursive search is exactly the exhaustive,
pruning-free minimax. -/
theorem search_none_eq_mm : ∀ (d : Nat) (pos : Pos),
    max_value B self score pos d none none = mm_max B self score pos d ∧
    min_value B self score pos d none none = mm_min B self score pos d := by
  intro d
  induction d with
  | zero => intro pos; exact ⟨rfl, rfl⟩
  | succ d ih =>
    intro pos
    constructor
    · exact maxLoop_none_eq_mm (fun p a b => min_value B self score p d a b)
        (fun p => mm_min B self score p d) B.forecast_move pos
        (fun p => congrArg Prod.fst (ih p).2) _ _ _
    · exact minLoop_none_eq_mm (fun p a b => max_value B self score p d a b)
        (fun p => mm_max B self score p d) B.forecast_move pos
        (fun p => congrArg Prod.fst (ih p).1) _ _ _

end SearchLemmas

theorem val_ne_bot (q : ℚ) : val q ≠ ⊥ := WithBot.coe_ne_bot

theorem val_ne_top (q : ℚ) : val q ≠ ⊤ := fun h =>
  WithTop.coe_ne_top (WithBot.coe_inj.mp h)

/-- C7: For every position reached with depth 0, both `max_value` and
`min_value` return the pair `(score(position, player), (-1, -1))` with no
further expansion, for any bounds and any board (in particular regardless of
terminal status, which is not consulted). -/
theorem C7_depth_zero_leaf : ∀ (Pos Player : Type) (B : Board Pos Player)
    (self : Player) (score : Pos → Player → SearchValue) (pos : Pos)
    (alpha beta : Option SearchValue),
    max_value B self score pos 0 alpha beta = (score pos self, noMove) ∧
    min_value B self score pos 0 alpha beta = (score pos self, noMove) :=
  fun _ _ _ _ _ _ _ _ => ⟨rfl, rfl⟩

/-- C6: `minimax` runs with both bounds absent; on absent bounds the pruning
guard `use_alpha_beta_pruning` is `false`, and the search coincides at every
node with the exhaustive, bound-free minimax `mm_max` / `mm_min`, which
explores every sibling of every node and performs no cutoff and no bound
tightening. -/
theorem C6_minimax_no_pruning :
    use_alpha_beta_pruning none none = false ∧
    ∀ (Pos Player : Type) (B : Board Pos Player) (self : Player)
      (score : Pos → Player → SearchValue) (pos : Pos) (d : Nat),
      max_value B self score pos d none none = mm_max B self score pos d ∧
      min_value B self score pos d none none = mm_min B self score pos d ∧
      minimax B self score pos d true = mm_max B self score pos d ∧
      minimax B self score pos d false = mm_min B self score pos d := by
  refine ⟨rfl, fun Pos Player B self score pos d => ?_⟩
  obtain ⟨h1, h2⟩ := search_none_eq_mm B self score d pos
  exact ⟨h1, h2, h1, h2⟩

/-- C4 as stated is false: at an interior node whose side to move has no
legal moves, the search returns the loop's initial utility (`-∞` at a
maximizing node), not the configured scoring function's value: on a board
with no legal moves and the constant evaluator `0`, the score component at
depth 1 is not the evaluator's value. -/
theorem C4_counterexample :
    cexBoard.get_legal_moves () () = [] ∧
    (max_value cexBoard () cexScore () 1 none none).1 ≠ cexScore () () ∧
    (min_value cexBoard () cexScore () 1 none none).1 ≠ cexScore () () := by
  refine ⟨rfl, ?_, ?_⟩ <;> decide

/-- C4 amended: at an interior node (depth > 0) whose side to move has no
legal moves, the recursion returns the sentinel move paired with the loop's
initial utility: `-∞` at a maximizing node and `+∞` at a minimizing node
(the evaluator is not consulted there). -/
theorem C4_amended_empty_moves : ∀ (Pos Player : Type) (B : Board Pos Player)
    (self : Player) (score : Pos → Player → SearchValue) (pos : Pos) (d : Nat)
    (alpha beta : Option SearchValue),
    (B.get_legal_moves pos self = [] →
      max_value B self score pos (d + 1) alpha beta = (⊥, noMove)) ∧
    (B.get_legal_moves pos (B.get_opponent self) = [] →
      min_value B self score pos (d + 1) alpha beta = (⊤, noMove)) := by
  intro Pos Player B self score pos d alpha beta
  constructor
  · intro h
    show maxLoop _ _ _ (B.get_legal_moves pos self) _ _ _ _ = _
    rw [h]
    rfl
  · intro h
    show minLoop _ _ _ (B.get_legal_moves pos (B.get_opponent self)) _ _ _ _ = _
    rw [h]
    rfl

theorem C4_amended_empty_moves_witness :
    max_value cexBoard () cexScore () 1 none none = (⊥, noMove) ∧
    min_value cexBoard () cexScore () 1 none none = (⊤, noMove) :=
  ⟨(C4_amended_empty_moves Unit Unit cexBoard () cexScore () 0 none none).1 rfl,
   (C4_amended_empty_moves Unit Unit cexBoard () cexScore () 0 none none).2 rfl⟩

/-- C9 as stated is false: `custom_score` checks `is_loser` before
`is_winner`, so on a board reporting both flags it returns `-∞` although the
player "is a winner", where the claim demands `+∞`. -/
theorem C9_counterexample :
    bothBoard.is_winner () () = true ∧
    custom_score bothBoard () () = ⊥ ∧
    custom_score bothBoard () () ≠ ⊤ := by
  refine ⟨rfl, ?_, ?_⟩ <;> decide

/-- C9 amended: the default scoring function returns `-∞` exactly when the
player is a loser, `+∞` exactly when the player is a winner and not a loser
(the loser check takes precedence), and otherwise the finite value
`my_weight * own moves - opp_weight * opponent moves` with the default
weights `1` and `1.5 = 3/2`. -/
theorem C9_amended_evaluator : ∀ (Pos Player : Type) (B : Board Pos Player)
    (pos : Pos) (player : Player),
    custom_score B pos player = custom_score_weight B pos player 1 (3 / 2) ∧
    (custom_score B pos player = ⊥ ↔ B.is_loser pos player = true) ∧
    (custom_score B pos player = ⊤ ↔
      B.is_loser pos player = false ∧ B.is_winner pos player = true) ∧
    (B.is_loser pos player = false → B.is_winner pos player = false →
      custom_score B pos player =
        val (1 * ((B.get_legal_moves pos player).length : ℚ) -
          (3 / 2) * ((B.get_legal_moves pos (B.get_opponent player)).length : ℚ))) := by
  intro Pos Player B pos player
  cases hl : B.is_loser pos player <;> cases hw : B.is_winner pos player <;>
    simp [custom_score, custom_score_weight, hl, hw, val_ne_bot, val_ne_top,
      bot_ne_top, top_ne_bot]

theorem C9_amended_evaluator_witness :
    custom_score cexBoard () () =
      val (1 * ((cexBoard.get_legal_moves () ()).length : ℚ) -
        (3 / 2) * ((cexBoard.get_legal_moves () (cexBoard.get_opponent ())).length : ℚ)) :=
  (C9_amended_evaluator Unit Unit cexBoard () ()).2.2.2 rfl rfl

section TimedLemmas

variable {Pos Player : Type} (B : Board Pos Player) (self : Player)
variable (score : Pos → Player → SearchValue)

/-- On a position where the searching side has no legal moves, every clocked
`max_value` call either times out or returns the sentinel move. -/
theorem max_valueT_empty (pos : Pos) (h : B.get_legal_moves pos self = []) :
    ∀ (d : Nat) (a b : Option SearchValue) (c : Nat),
      max_valueT B self score pos d a b c = .error () ∨
      ∃ v c', max_valueT B self score pos d a b c = .ok ((v, noMove), c') := by
  intro d a b c
  rcases d with _ | d <;> rcases c with _ | c
  · exact Or.inl rfl
  · exact Or.inr ⟨score pos self, c, rfl⟩
  · exact Or.inl rfl
  · right
    refine ⟨⊥, c, ?_⟩
    show loopTmax _ _ _ (B.get_legal_moves pos self) _ _ _ _ _ = _
    rw [h]
    rfl

/-- Under the same hypothesis the iterative-deepening loop never moves off
the sentinel. -/
theorem idLoop_empty (pos : Pos) (h : B.get_legal_moves pos self = []) :
    ∀ (fuel clock d : Nat) (ab : Option SearchValue × Option SearchValue),
      idLoop B self score pos ab fuel clock d noMove = noMove := by
  intro fuel
  induction fuel with
  | zero => intros; rfl
  | succ fuel ih =>
    intro clock d ab
    simp only [idLoop]
    rcases max_valueT_empty B self score pos h d ab.1 ab.2 clock with he | ⟨v, c', hok⟩
    · rw [he]
    · rw [hok]
      exact ih c' (d + 1) ab

end TimedLemmas

/-- C8: whenever the acting player has no legal moves in the root position,
`get_move` returns the sentinel `(-1, -1)`, in iterative and in fixed-depth
mode, for every method, search depth and clock.  (The source performs no
early return on its unused `legal_moves` argument; the sentinel is the value
the search itself produces.) -/
theorem C8_no_moves_sentinel : ∀ (Pos Player : Type) (B : Board Pos Player)
    (self : Player) (score : Pos → Player → SearchValue) (pos : Pos),
    B.get_legal_moves pos self = [] →
    ∀ (legal_moves : List Move) (iterative : Bool) (search_depth : Nat)
      (method : String) (clock : Nat),
      get_move B self score pos legal_moves iterative search_depth method clock =
        noMove := by
  intro Pos Player B self score pos h legal_moves iterative search_depth method clock
  cases iterative
  · simp only [get_move, Bool.false_eq_true, if_false]
    rcases max_valueT_empty B self score pos h search_depth
        (method_bounds method).1 (method_bounds method).2 clock with he | ⟨v, c', hok⟩
    · rw [he]
    · rw [hok]
  · simp only [get_move, if_true]
    exact idLoop_empty B self score pos h (clock + 1) clock 1 (method_bounds method)

theorem C8_no_moves_sentinel_witness :
    get_move cexBoard () cexScore () [] true 3 "minimax" 5 = noMove ∧
    get_move cexBoard () cexScore () [(3, 3)] false 2 "alphabeta" 7 = noMove :=
  ⟨C8_no_moves_sentinel Unit Unit cexBoard () cexScore () rfl [] true 3 "minimax" 5,
   C8_no_moves_sentinel Unit Unit cexBoard () cexScore () rfl [(3, 3)] false 2
     "alphabeta" 7⟩


theorem maxLoop_mem {Pos : Type}
    (child : Pos → Option SearchValue → Option SearchValue → SearchValue × Move)
    (fc : Pos → Move → Pos) (pos : Pos) :
    ∀ (ms : List Move) (u : SearchValue) (best : Move)
      (alpha beta : Option SearchValue),
      (maxLoop child fc pos ms u best alpha beta).2 = best ∨
      (maxLoop child fc pos ms u best alpha beta).2 ∈ ms := by
  intro ms
  induction ms with
  | nil => intro u best alpha beta; exact Or.inl rfl
  | cons m ms ih =>
    intro u best alpha beta
    have hlift : ∀ (u' : SearchValue) (alpha' beta' : Option SearchValue),
        (maxLoop child fc pos ms u' m alpha' beta').2 = best ∨
          (maxLoop child fc pos ms u' m alpha' beta').2 ∈ m :: ms := by
      intro u' alpha' beta'
      rcases ih u' m alpha' beta' with h | h
      · exact Or.inr (by rw [h]; exact List.mem_cons_self m ms)
      · exact Or.inr (List.mem_cons_of_mem m h)
    have hkeep : ∀ (u' : SearchValue) (alpha' beta' : Option SearchValue),
        (maxLoop child fc pos ms u' best alpha' beta').2 = best ∨
          (maxLoop child fc pos ms u' best alpha' beta').2 ∈ m :: ms := by
      intro u' alpha' beta'
      rcases ih u' best alpha' beta' with h | h
      · exact Or.inl h
      · exact Or.inr (List.mem_cons_of_mem m h)
    by_cases hus : u < (child (fc pos m) alpha beta).1
    · rcases alpha with _ | a <;> rcases beta with _ | b <;>
        simp only [maxLoop, if_pos hus]
      · exact hlift _ _ _
      · exact hlift _ _ _
      · exact hlift _ _ _
      · by_cases hcut : b ≤ (child (fc pos m) (some a) (some b)).1
        · rw [if_pos hcut]
          exact Or.inr (List.mem_cons_self m ms)
        · rw [if_neg hcut]
          exact hlift _ _ _
    · rcases alpha with _ | a <;> rcases beta with _ | b <;>
        simp only [maxLoop, if_neg hus]
      · exact hkeep _ _ _
      · exact hkeep _ _ _
      · exact hkeep _ _ _
      · by_cases hcut : b ≤ u
        · rw [if_pos hcut]
          exact Or.inl rfl
        · rw [if_neg hcut]
          exact hkeep _ _ _

theorem minLoop_mem {Pos : Type}
    (child : Pos → Option SearchValue → Option SearchValue → SearchValue × Move)
    (fc : Pos → Move → Pos) (pos : Pos) :
    ∀ (ms : List Move) (u : SearchValue) (best : Move)
      (alpha beta : Option SearchValue),
      (minLoop child fc pos ms u best alpha beta).2 = best ∨
      (minLoop child fc pos ms u best alpha beta).2 ∈ ms := by
  intro ms
  induction ms with
  | nil => intro u best alpha beta; exact Or.inl rfl
  | cons m ms ih =>
    intro u best alpha beta
    have hlift : ∀ (u' : SearchValue) (alpha' beta' : Option SearchValue),
        (minLoop child fc pos ms u' m alpha' beta').2 = best ∨
          (minLoop child fc pos ms u' m alpha' beta').2 ∈ m :: ms := by
      intro u' alpha' beta'
      rcases ih u' m alpha' beta' with h | h
      · exact Or.inr (by rw [h]; exact List.mem_cons_self m ms)
      · exact Or.inr (List.mem_cons_of_mem m h)
    have hkeep : ∀ (u' : SearchValue) (alpha' beta' : Option SearchValue),
        (minLoop child fc pos ms u' best alpha' beta').2 = best ∨
          (minLoop child fc pos ms u' best alpha' beta').2 ∈ m :: ms := by
      intro u' alpha' beta'
      rcases ih u' best alpha' beta' with h | h
      · exact Or.inl h
      · exact Or.inr (List.mem_cons_of_mem m h)
    by_cases hus : (child (fc pos m) alpha beta).1 < u
    · rcases alpha with _ | a <;> rcases beta with _ | b <;>
        simp only [minLoop, if_pos hus]
      · exact hlift _ _ _
      · exact hlift _ _ _
      · exact hlift _ _ _
      · by_cases hcut : (child (fc pos m) (some a) (some b)).1 ≤ a
        · rw [if_pos hcut]
          exact Or.inr (List.mem_cons_self m ms)
        · rw [if_neg hcut]
          exact hlift _ _ _
    · rcases alpha with _ | a <;> rcases beta with _ | b <;>
        simp only [minLoop, if_neg hus]
      · exact hkeep _ _ _
      · exact hkeep _ _ _
      · exact hkeep _ _ _
      · by_cases hcut : u ≤ a
        · rw [if_pos hcut]
          exact Or.inl rfl
        · rw [if_neg hcut]
          exact hkeep _ _ _

theorem loopTmax_mem {Pos : Type}
    (child : Pos → Option SearchValue → Option SearchValue → Nat →
      Except Unit ((SearchValue × Move) × Nat))
    (fc : Pos → Move → Pos) (pos : Pos) :
    ∀ (ms : List Move) (u : SearchValue) (best : Move)
      (alpha beta : Option SearchValue) (c : Nat) (v : SearchValue) (mv : Move)
      (c' : Nat),
      loopTmax child fc pos ms u best alpha beta c = .ok ((v, mv), c') →
      mv = best ∨ mv ∈ ms := by
  intro ms
  induction ms with
  | nil =>
    intro u best alpha beta c v mv c' h
    exact Or.inl (congrArg (fun r => r.1.2) (Except.ok.inj h)).symm
  | cons m ms ih =>
    intro u best alpha beta c v mv c' h
    have hlift : ∀ (u' : SearchValue) (alpha' beta' : Option SearchValue) (c₂ : Nat),
        loopTmax child fc pos ms u' m alpha' beta' c₂ = .ok ((v, mv), c') →
        mv = best ∨ mv ∈ m :: ms := by
      intro u' alpha' beta' c₂ h'
      rcases ih u' m alpha' beta' c₂ v mv c' h' with hh | hh
      · exact Or.inr (by rw [hh]; exact List.mem_cons_self m ms)
      · exact Or.inr (List.mem_cons_of_mem m hh)
    have hkeep : ∀ (u' : SearchValue) (alpha' beta' : Option SearchValue) (c₂ : Nat),
        loopTmax child fc pos ms u' best alpha' beta' c₂ = .ok ((v, mv), c') →
        mv = best ∨ mv ∈ m :: ms := by
      intro u' alpha' beta' c₂ h'
      rcases ih u' best alpha' beta' c₂ v mv c' h' with hh | hh
      · exact Or.inl hh
      · exact Or.inr (List.mem_cons_of_mem m hh)
    rcases hch : child (fc pos m) alpha beta c with e | ⟨⟨s, smv⟩, c₁⟩
    · rw [loopTmax, hch] at h
      exact absurd h (by simp)
    · by_cases hus : u < s
      · rcases alpha with _ | a <;> rcases beta with _ | b <;>
          rw [loopTmax, hch] at h <;> simp only [if_pos hus] at h
        · exact hlift _ _ _ _ h
        · exact hlift _ _ _ _ h
        · exact hlift _ _ _ _ h
        · by_cases hcut : b ≤ s
          · rw [if_pos hcut] at h
            have hmveq : m = mv := congrArg (fun r => r.1.2) (Except.ok.inj h)
            exact Or.inr (hmveq ▸ List.mem_cons_self m ms)
          · rw [if_neg hcut] at h
            exact hlift _ _ _ _ h
      · rcases alpha with _ | a <;> rcases beta with _ | b <;>
          rw [loopTmax, hch] at h <;> simp only [if_neg hus] at h
        · exact hkeep _ _ _ _ h
        · exact hkeep _ _ _ _ h
        · exact hkeep _ _ _ _ h
        · by_cases hcut : b ≤ u
          · rw [if_pos hcut] at h
            exact Or.inl (congrArg (fun r => r.1.2) (Except.ok.inj h)).symm
          · rw [if_neg hcut] at h
            exact hkeep _ _ _ _ h

theorem loopTmin_mem {Pos : Type}
    (child : Pos → Option SearchValue → Option SearchValue → Nat →
      Except Unit ((SearchValue × Move) × Nat))
    (fc : Pos → Move → Pos) (pos : Pos) :
    ∀ (ms : List Move) (u : SearchValue) (best : Move)
      (alpha beta : Option SearchValue) (c : Nat) (v : SearchValue) (mv : Move)
      (c' : Nat),
      loopTmin child fc pos ms u best alpha beta c = .ok ((v, mv), c') →
      mv = best ∨ mv ∈ ms := by
  intro ms
  induction ms with
  | nil =>
    intro u best alpha beta c v mv c' h
    exact Or.inl (congrArg (fun r => r.1.2) (Except.ok.inj h)).symm
  | cons m ms ih =>
    intro u best alpha beta c v mv c' h
    have hlift : ∀ (u' : SearchValue) (alpha' beta' : Option SearchValue) (c₂ : Nat),
        loopTmin child fc pos ms u' m alpha' beta' c₂ = .ok ((v, mv), c') →
        mv = best ∨ mv ∈ m :: ms := by
      intro u' alpha' beta' c₂ h'
      rcases ih u' m alpha' beta' c₂ v mv c' h' with hh | hh
      · exact Or.inr (by rw [hh]; exact List.mem_cons_self m ms)
      · exact Or.inr (List.mem_cons_of_mem m hh)
    have hkeep : ∀ (u' : SearchValue) (alpha' beta' : Option SearchValue) (c₂ : Nat),
        loopTmin child fc pos ms u' best alpha' beta' c₂ = .ok ((v, mv), c') →
        mv = best ∨ mv ∈ m :: ms := by
      intro u' alpha' beta' c₂ h'
      rcases ih u' best alpha' beta' c₂ v mv c' h' with hh | hh
      · exact Or.inl hh
      · exact Or.inr (List.mem_cons_of_mem m hh)
    rcases hch : child (fc pos m) alpha beta c with e | ⟨⟨s, smv⟩, c₁⟩
    · rw [loopTmin, hch] at h
      exact absurd h (by simp)
    · by_cases hus : s < u
      · rcases alpha with _ | a <;> rcases beta with _ | b <;>
          rw [loopTmin, hch] at h <;> simp only [if_pos hus] at h
        · exact hlift _ _ _ _ h
        · exact hlift _ _ _ _ h
        · exact hlift _ _ _ _ h
        · by_cases hcut : s ≤ a
          · rw [if_pos hcut] at h
            have hmveq : m = mv := congrArg (fun r => r.1.2) (Except.ok.inj h)
            exact Or.inr (hmveq ▸ List.mem_cons_self m ms)
          · rw [if_neg hcut] at h
            exact hlift _ _ _ _ h
      · rcases alpha with _ | a <;> rcases beta with _ | b <;>
          rw [loopTmin, hch] at h <;> simp only [if_neg hus] at h
        · exact hkeep _ _ _ _ h
        · exact hkeep _ _ _ _ h
        · exact hkeep _ _ _ _ h
        · by_cases hcut : u ≤ a
          · rw [if_pos hcut] at h
            exact Or.inl (congrArg (fun r => r.1.2) (Except.ok.inj h)).symm
          · rw [if_neg hcut] at h
            exact hkeep _ _ _ _ h

section NodeMem

variable {Pos Player : Type} (B : Board Pos Player) (self : Player)
variable (score : Pos → Player → SearchValue)

/-- Every clocked `max_value` call that completes returns the sentinel or one
of the legal moves it enumerated at the root of its subtree. -/
theorem max_valueT_mem (pos : Pos) :
    ∀ (d : Nat) (a b : Option SearchValue) (c : Nat) (v : SearchValue)
      (mv : Move) (c' : Nat),
      max_valueT B self score pos d a b c = .ok ((v, mv), c') →
      mv = noMove ∨ mv ∈ B.get_legal_moves pos self := by
  intro d a b c v mv c' h
  rcases d with _ | d <;> rcases c with _ | c
  · exact absurd h (by simp [max_valueT])
  · exact Or.inl (congrArg (fun r => r.1.2) (Except.ok.inj h)).symm
  · exact absurd h (by simp [max_valueT])
  · exact loopTmax_mem _ _ _ _ _ _ _ _ _ _ _ _ h

/-- An iterative-deepening loop started on the sentinel or on a legal root
move ends on the sentinel or on a legal root move. -/
theorem idLoop_mem (pos : Pos) (ab : Option SearchValue × Option SearchValue) :
    ∀ (fuel clock d : Nat) (m : Move),
      (m = noMove ∨ m ∈ B.get_legal_moves pos self) →
      (idLoop B self score pos ab fuel clock d m = noMove ∨
        idLoop B self score pos ab fuel clock d m ∈ B.get_legal_moves pos self) := by
  intro fuel
  induction fuel with
  | zero => intro clock d m hm; exact hm
  | succ fuel ih =>
    intro clock d m hm
    simp only [idLoop]
    rcases hres : max_valueT B self score pos d ab.1 ab.2 clock with e | ⟨⟨v, mv⟩, c'⟩
    · exact hm
    · exact ih c' (d + 1) mv (max_valueT_mem B self score pos d ab.1 ab.2 clock v mv c' hres)

end NodeMem

/-- C10: every `(value, move)` pair returned by `max_value` or `min_value`
carries either the sentinel or a member of the legal-move list enumerated at
that node (own moves at maximizing nodes, opponent moves at minimizing
nodes); and `get_move`, in either mode, returns either the sentinel or a
legal move of the root position for the acting player. -/
theorem C10_move_membership :
    (∀ (Pos Player : Type) (B : Board Pos Player) (self : Player)
      (score : Pos → Player → SearchValue) (pos : Pos) (d : Nat)
      (alpha beta : Option SearchValue),
      ((max_value B self score pos d alpha beta).2 = noMove ∨
        (max_value B self score pos d alpha beta).2 ∈ B.get_legal_moves pos self) ∧
      ((min_value B self score pos d alpha beta).2 = noMove ∨
        (min_value B self score pos d alpha beta).2 ∈
          B.get_legal_moves pos (B.get_opponent self))) ∧
    (∀ (Pos Player : Type) (B : Board Pos Player) (self : Player)
      (score : Pos → Player → SearchValue) (pos : Pos) (legal_moves : List Move)
      (iterative : Bool) (search_depth : Nat) (method : String) (clock : Nat),
      get_move B self score pos legal_moves iterative search_depth method clock =
          noMove ∨
      get_move B self score pos legal_moves iterative search_depth method clock ∈
        B.get_legal_moves pos self) := by
  constructor
  · intro Pos Player B self score pos d alpha beta
    constructor
    · rcases d with _ | d
      · exact Or.inl rfl
      · exact maxLoop_mem _ _ _ _ _ _ _ _
    · rcases d with _ | d
      · exact Or.inl rfl
      · exact minLoop_mem _ _ _ _ _ _ _ _
  · intro Pos Player B self score pos legal_moves iterative search_depth method clock
    cases iterative
    · simp only [get_move, Bool.false_eq_true, if_false]
      rcases hres : max_valueT B self score pos search_depth
          (method_bounds method).1 (method_bounds method).2 clock with e | ⟨⟨v, mv⟩, c'⟩
      · exact Or.inl rfl
      · exact max_valueT_mem B self score pos search_depth _ _ clock v mv c' hres
    · simp only [get_move, if_true]
      exact idLoop_mem B self score pos (method_bounds method) (clock + 1) clock 1
        noMove (Or.inl rfl)

theorem loopTmax_clock {Pos : Type}
    (child : Pos → Option SearchValue → Option SearchValue → Nat →
      Except Unit ((SearchValue × Move) × Nat))
    (fc : Pos → Move → Pos) (pos : Pos)
    (hchild : ∀ p a b c r c', child p a b c = .ok (r, c') → c' ≤ c) :
    ∀ (ms : List Move) (u : SearchValue) (best : Move)
      (alpha beta : Option SearchValue) (c : Nat) (r : SearchValue × Move)
      (c' : Nat),
      loopTmax child fc pos ms u best alpha beta c = .ok (r, c') → c' ≤ c := by
  intro ms
  induction ms with
  | nil =>
    intro u best alpha beta c r c' h
    exact le_of_eq (congrArg (fun x => x.2) (Except.ok.inj h)).symm
  | cons m ms ih =>
    intro u best alpha beta c r c' h
    rcases hch : child (fc pos m) alpha beta c with e | ⟨⟨s, smv⟩, c₁⟩
    · rw [loopTmax, hch] at h
      exact absurd h (by simp)
    · have hc₁ : c₁ ≤ c := hchild _ _ _ _ _ _ hch
      by_cases hus : u < s
      · rcases alpha with _ | a <;> rcases beta with _ | b <;>
          rw [loopTmax, hch] at h <;> simp only [if_pos hus] at h
        · exact le_trans (ih _ _ _ _ _ _ _ h) hc₁
        · exact le_trans (ih _ _ _ _ _ _ _ h) hc₁
        · exact le_trans (ih _ _ _ _ _ _ _ h) hc₁
        · by_cases hcut : b ≤ s
          · rw [if_pos hcut] at h
            exact le_trans (le_of_eq (congrArg (fun x => x.2) (Except.ok.inj h)).symm) hc₁
          · rw [if_neg hcut] at h
            exact le_trans (ih _ _ _ _ _ _ _ h) hc₁
      · rcases alpha with _ | a <;> rcases beta with _ | b <;>
          rw [loopTmax, hch] at h <;> simp only [if_neg hus] at h
        · exact le_trans (ih _ _ _ _ _ _ _ h) hc₁
        · exact le_trans (ih _ _ _ _ _ _ _ h) hc₁
        · exact le_trans (ih _ _ _ _ _ _ _ h) hc₁
        · by_cases hcut : b ≤ u
          · rw [if_pos hcut] at h
            exact le_trans (le_of_eq (congrArg (fun x => x.2) (Except.ok.inj h)).symm) hc₁
          · rw [if_neg hcut] at h
            exact le_trans (ih _ _ _ _ _ _ _ h) hc₁

theorem loopTmin_clock {Pos : Type}
    (child : Pos → Option SearchValue → Option SearchValue → Nat →
      Except Unit ((SearchValue × Move) × Nat))
    (fc : Pos → Move → Pos) (pos : Pos)
    (hchild : ∀ p a b c r c', child p a b c = .ok (r, c') → c' ≤ c) :
    ∀ (ms : List Move) (u : SearchValue) (best : Move)
      (alpha beta : Option SearchValue) (c : Nat) (r : SearchValue × Move)
      (c' : Nat),
      loopTmin child fc pos ms u best alpha beta c = .ok (r, c') → c' ≤ c := by
  intro ms
  induction ms with
  | nil =>
    intro u best alpha beta c r c' h
    exact le_of_eq (congrArg (fun x => x.2) (Except.ok.inj h)).symm
  | cons m ms ih =>
    intro u best alpha beta c r c' h
    rcases hch : child (fc pos m) alpha beta c with e | ⟨⟨s, smv⟩, c₁⟩
    · rw [loopTmin, hch] at h
      exact absurd h (by simp)
    · have hc₁ : c₁ ≤ c := hchild _ _ _ _ _ _ hch
      by_cases hus : s < u
      · rcases alpha with _ | a <;> rcases beta with _ | b <;>
          rw [loopTmin, hch] at h <;> simp only [if_pos hus] at h
        · exact le_trans (ih _ _ _ _ _ _ _ h) hc₁
        · exact le_trans (ih _ _ _ _ _ _ _ h) hc₁
        · exact le_trans (ih _ _ _ _ _ _ _ h) hc₁
        · by_cases hcut : s ≤ a
          · rw [if_pos hcut] at h
            exact le_trans (le_of_eq (congrArg (fun x => x.2) (Except.ok.inj h)).symm) hc₁
          · rw [if_neg hcut] at h
            exact le_trans (ih _ _ _ _ _ _ _ h) hc₁
      · rcases alpha with _ | a <;> rcases beta with _ | b <;>
          rw [loopTmin, hch] at h <;> simp only [if_neg hus] at h
        · exact le_trans (ih _ _ _ _ _ _ _ h) hc₁
        · exact le_trans (ih _ _ _ _ _ _ _ h) hc₁
        · exact le_trans (ih _ _ _ _ _ _ _ h) hc₁
        · by_cases hcut : u ≤ a
          · rw [if_pos hcut] at h
            exact le_trans (le_of_eq (congrArg (fun x => x.2) (Except.ok.inj h)).symm) hc₁
          · rw [if_neg hcut] at h
            exact le_trans (ih _ _ _ _ _ _ _ h) hc₁

section ClockLemmas

variable {Pos Player : Type} (B : Board Pos Player) (self : Player)
variable (score : Pos → Player → SearchValue)

/-- Every completed clocked search consumed at least one tick: the node entry
itself costs one. -/
theorem searchT_clock : ∀ (d : Nat),
    (∀ (pos : Pos) (a b : Option SearchValue) (c : Nat) (r : SearchValue × Move)
      (c' : Nat), max_valueT B self score pos d a b c = .ok (r, c') → c' < c) ∧
    (∀ (pos : Pos) (a b : Option SearchValue) (c : Nat) (r : SearchValue × Move)
      (c' : Nat), min_valueT B self score pos d a b c = .ok (r, c') → c' < c) := by
  intro d
  induction d with
  | zero =>
    constructor <;> intro pos a b c r c' h <;> rcases c with _ | c
    · exact absurd h (by simp [max_valueT])
    · exact Nat.lt_succ_of_le (le_of_eq (congrArg (fun x => x.2) (Except.ok.inj h)).symm)
    · exact absurd h (by simp [min_valueT])
    · exact Nat.lt_succ_of_le (le_of_eq (congrArg (fun x => x.2) (Except.ok.inj h)).symm)
  | succ d ih =>
    constructor <;> intro pos a b c r c' h <;> rcases c with _ | c
    · exact absurd h (by simp [max_valueT])
    · exact Nat.lt_succ_of_le (loopTmax_clock _ _ _
        (fun p a' b' c'' r' c''' h' => le_of_lt (ih.2 p a' b' c'' r' c''' h'))
        _ _ _ _ _ _ _ _ h)
    · exact absurd h (by simp [min_valueT])
    · exact Nat.lt_succ_of_le (loopTmin_clock _ _ _
        (fun p a' b' c'' r' c''' h' => le_of_lt (ih.1 p a' b' c'' r' c''' h'))
        _ _ _ _ _ _ _ _ h)

/-- Characterization of the iterative-deepening loop: with fuel beyond the
clock it runs depths `d, d+1, ...` to completion until the first depth whose
search times out, and returns the move recorded from the last completed
depth. -/
theorem idLoop_spec (pos : Pos) (ab : Option SearchValue × Option SearchValue) :
    ∀ (clock fuel d : Nat) (m : Move), clock < fuel →
      ∃ (k : Nat) (mv : Move) (c' : Nat),
        runFrom B self score pos ab k d clock m = some (mv, c') ∧
        max_valueT B self score pos (d + k) ab.1 ab.2 c' = .error () ∧
        idLoop B self score pos ab fuel clock d m = mv := by
  intro clock
  induction clock using Nat.strong_induction_on with
  | _ clock ihc =>
    intro fuel d m hf
    rcases fuel with _ | fuel
    · exact absurd hf (Nat.not_lt_zero clock)
    · simp only [idLoop]
      rcases hres : max_valueT B self score pos d ab.1 ab.2 clock with e | ⟨⟨v, mv₀⟩, c₁⟩
      · refine ⟨0, m, clock, rfl, ?_, rfl⟩
        rw [Nat.add_zero]
        rcases e
        exact hres
      · have hc₁ : c₁ < clock :=
          (searchT_clock B self score d).1 pos ab.1 ab.2 clock (v, mv₀) c₁ hres
        have hfuel : c₁ < fuel := Nat.lt_of_lt_of_le hc₁ (Nat.lt_succ_iff.mp hf)
        obtain ⟨k, mv, c', h1, h2, h3⟩ := ihc c₁ hc₁ fuel (d + 1) mv₀ hfuel
        refine ⟨k + 1, mv, c', ?_, ?_, h3⟩
        · rw [runFrom, hres]
          exact h1
        · have hdk : d + (k + 1) = (d + 1) + k := by omega
          rw [hdk]
          exact h2

/-- The fuel argument of `idLoop` is immaterial once it exceeds the clock:
the loop's only exit is a timeout. -/
theorem idLoop_fuel_irrel (pos : Pos) (ab : Option SearchValue × Option SearchValue) :
    ∀ (clock f₁ f₂ d : Nat) (m : Move), clock < f₁ → clock < f₂ →
      idLoop B self score pos ab f₁ clock d m =
        idLoop B self score pos ab f₂ clock d m := by
  intro clock
  induction clock using Nat.strong_induction_on with
  | _ clock ihc =>
    intro f₁ f₂ d m h₁ h₂
    rcases f₁ with _ | f₁
    · exact absurd h₁ (Nat.not_lt_zero clock)
    rcases f₂ with _ | f₂
    · exact absurd h₂ (Nat.not_lt_zero clock)
    simp only [idLoop]
    rcases hres : max_valueT B self score pos d ab.1 ab.2 clock with e | ⟨⟨v, mv₀⟩, c₁⟩
    · rfl
    · have hc₁ : c₁ < clock :=
        (searchT_clock B self score d).1 pos ab.1 ab.2 clock (v, mv₀) c₁ hres
      exact ihc c₁ hc₁ f₁ f₂ (d + 1) mv₀
        (Nat.lt_of_lt_of_le hc₁ (Nat.lt_succ_iff.mp h₁))
        (Nat.lt_of_lt_of_le hc₁ (Nat.lt_succ_iff.mp h₂))

end ClockLemmas

/-- C2: an iterative `get_move` always returns the move recorded from the
last depth that completed before the clock ran out: there is an `n` such
that the searches at depths `1, ..., n` all completed, the search at depth
`n + 1` raised `Timeout`, the partial result of that in-flight depth is
discarded, and the returned move is the one depth `n` produced — the
sentinel `(-1, -1)` when no depth ever completed (`n = 0`).  `get_move`
itself is a total function into `Move`: the raised `Timeout` is consumed at
its boundary and never reaches the caller. -/
theorem C2_timeout_returns_last_completed :
    ∀ (Pos Player : Type) (B : Board Pos Player) (self : Player)
      (score : Pos → Player → SearchValue) (pos : Pos) (legal_moves : List Move)
      (search_depth : Nat) (method : String) (clock : Nat),
      ∃ (n : Nat) (mv : Move) (c' : Nat),
        runDepths B self score pos (method_bounds method) n clock = some (mv, c') ∧
        max_valueT B self score pos (n + 1) (method_bounds method).1
          (method_bounds method).2 c' = .error () ∧
        get_move B self score pos legal_moves true search_depth method clock = mv ∧
        (n = 0 → mv = noMove) := by
  intro Pos Player B self score pos legal_moves search_depth method clock
  obtain ⟨k, mv, c', h1, h2, h3⟩ := idLoop_spec B self score pos
    (method_bounds method) clock (clock + 1) 1 noMove (Nat.lt_succ_self clock)
  refine ⟨k, mv, c', h1, ?_, h3, ?_⟩
  · have : 1 + k = k + 1 := Nat.add_comm 1 k
    rw [← this]
    exact h2
  · intro hk
    subst hk
    exact (congrArg (fun x => x.1) (Option.some.inj h1)).symm

/-- C3: in iterative mode the engine starts at depth 1 and, after each fully
completed depth, retries at exactly the next depth, with the configured
`search_depth` never consulted (the result is identical for any two
configured depths) and no upper bound (the result is identical for any two
fuel reserves beyond the clock); the loop stops only because some depth's
search raises `Timeout`. -/
theorem C3_iterative_unbounded :
    ∀ (Pos Player : Type) (B : Board Pos Player) (self : Player)
      (score : Pos → Player → SearchValue) (pos : Pos) (legal_moves : List Move)
      (method : String) (clock : Nat),
      (∀ sd₁ sd₂ : Nat,
        get_move B self score pos legal_moves true sd₁ method clock =
          get_move B self score pos legal_moves true sd₂ method clock) ∧
      (∀ f₁ f₂ : Nat,
        idLoop B self score pos (method_bounds method) (clock + 1 + f₁) clock 1 noMove =
          idLoop B self score pos (method_bounds method) (clock + 1 + f₂) clock 1 noMove) ∧
      (∃ (n : Nat) (mv : Move) (c' : Nat),
        runDepths B self score pos (method_bounds method) n clock = some (mv, c') ∧
        max_valueT B self score pos (n + 1) (method_bounds method).1
          (method_bounds method).2 c' = .error () ∧
        idLoop B self score pos (method_bounds method) (clock + 1) clock 1 noMove = mv) := by
  intro Pos Player B self score pos legal_moves method clock
  refine ⟨fun sd₁ sd₂ => rfl, fun f₁ f₂ => ?_, ?_⟩
  · exact idLoop_fuel_irrel B self score pos (method_bounds method) clock _ _ 1 noMove
      (by omega) (by omega)
  · obtain ⟨k, mv, c', h1, h2, h3⟩ := idLoop_spec B self score pos
      (method_bounds method) clock (clock + 1) 1 noMove (Nat.lt_succ_self clock)
    refine ⟨k, mv, c', h1, ?_, h3⟩
    have : 1 + k = k + 1 := Nat.add_comm 1 k
    rw [← this]
    exact h2

theorem mmMaxLoop_argmax {Pos : Type} (child : Pos → SearchValue × Move)
    (fc : Pos → Move → Pos) (pos : Pos) :
    ∀ (ms : List Move) (u : SearchValue) (best : Move),
      (mmMaxLoop child fc pos ms u best = (u, best) ∧
        ∀ m ∈ ms, (child (fc pos m)).1 ≤ u) ∨
      (∃ l₁ mv l₂, ms = l₁ ++ mv :: l₂ ∧
        mmMaxLoop child fc pos ms u best = ((child (fc pos mv)).1, mv) ∧
        u < (child (fc pos mv)).1 ∧
        (∀ m ∈ l₁, (child (fc pos m)).1 < (child (fc pos mv)).1) ∧
        (∀ m ∈ l₂, (child (fc pos m)).1 ≤ (child (fc pos mv)).1)) := by
  intro ms
  induction ms with
  | nil =>
    intro u best
    exact Or.inl ⟨rfl, by simp⟩
  | cons m ms ih =>
    intro u best
    by_cases hus : u < (child (fc pos m)).1
    · have hstep : mmMaxLoop child fc pos (m :: ms) u best =
          mmMaxLoop child fc pos ms (child (fc pos m)).1 m := by
        simp only [mmMaxLoop, if_pos hus]
      rcases ih (child (fc pos m)).1 m with ⟨hEq, hall⟩ | ⟨l₁, mv, l₂, hms, hEq, hlt, h₁, h₂⟩
      · refine Or.inr ⟨[], m, ms, rfl, ?_, hus, by simp, ?_⟩
        · rw [hstep, hEq]
        · intro m' hm'
          exact hall m' hm'
      · refine Or.inr ⟨m :: l₁, mv, l₂, by rw [hms]; rfl, ?_, lt_trans hus hlt, ?_, h₂⟩
        · rw [hstep, hEq]
        · intro m' hm'
          rcases List.mem_cons.mp hm' with hm' | hm'
          · rw [hm']
            exact hlt
          · exact h₁ m' hm'
    · have hstep : mmMaxLoop child fc pos (m :: ms) u best =
          mmMaxLoop child fc pos ms u best := by
        simp only [mmMaxLoop, if_neg hus]
      rcases ih u best with ⟨hEq, hall⟩ | ⟨l₁, mv, l₂, hms, hEq, hlt, h₁, h₂⟩
      · refine Or.inl ⟨by rw [hstep, hEq], ?_⟩
        intro m' hm'
        rcases List.mem_cons.mp hm' with hm' | hm'
        · rw [hm']
          exact not_lt.mp hus
        · exact hall m' hm'
      · refine Or.inr ⟨m :: l₁, mv, l₂, by rw [hms]; rfl, by rw [hstep, hEq],
          hlt, ?_, h₂⟩
        intro m' hm'
        rcases List.mem_cons.mp hm' with hm' | hm'
        · rw [hm']
          exact lt_of_le_of_lt (not_lt.mp hus) hlt
        · exact h₁ m' hm'

theorem C5_strict_improvement_first_argmax :
    (∀ (Pos Player : Type) (B : Board Pos Player) (self : Player)
      (score : Pos → Player → SearchValue) (pos : Pos) (d : Nat),
      (max_value B self score pos (d + 1) none none = (⊥, noMove) ∧
        ∀ m ∈ B.get_legal_moves pos self,
          (min_value B self score (B.forecast_move pos m) d none none).1 ≤ ⊥) ∨
      (∃ l₁ mv l₂, B.get_legal_moves pos self = l₁ ++ mv :: l₂ ∧
        max_value B self score pos (d + 1) none none =
          ((min_value B self score (B.forecast_move pos mv) d none none).1, mv) ∧
        ⊥ < (min_value B self score (B.forecast_move pos mv) d none none).1 ∧
        (∀ m ∈ l₁, (min_value B self score (B.forecast_move pos m) d none none).1 <
          (min_value B self score (B.forecast_move pos mv) d none none).1) ∧
        (∀ m ∈ l₂, (min_value B self score (B.forecast_move pos m) d none none).1 ≤
          (min_value B self score (B.forecast_move pos mv) d none none).1))) ∧
    minimax exBoard () (exScore 5 5 9) 0 1 true = (val 9, (0, 2)) ∧
    get_move exBoard () (exScore 5 5 9) 0 [(0, 0), (0, 1), (0, 2)] false 1 "minimax" 10 =
      (0, 2) ∧
    minimax exBoard () (exScore 9 9 5) 0 1 true = (val 9, (0, 0)) ∧
    get_move exBoard () (exScore 9 9 5) 0 [(0, 0), (0, 1), (0, 2)] false 1 "minimax" 10 =
      (0, 0) := by
  refine ⟨?_, by decide, by decide, by decide, by decide⟩
  intro Pos Player B self score pos d
  have hbr : ∀ p, min_value B self score p d none none = mm_min B self score p d :=
    fun p => (search_none_eq_mm B self score d p).2
  have hroot : max_value B self score pos (d + 1) none none =
      mmMaxLoop (fun p => mm_min B self score p d) B.forecast_move pos
        (B.get_legal_moves pos self) ⊥ noMove :=
    (search_none_eq_mm B self score (d + 1) pos).1
  simp only [hbr, hroot]
  exact mmMaxLoop_argmax (fun p => mm_min B self score p d) B.forecast_move pos
    (B.get_legal_moves pos self) ⊥ noMove

theorem foldl_max_init (w : Move → SearchValue) :
    ∀ (l : List Move) (u v : SearchValue),
      List.foldl (fun acc m => max acc (w m)) (max u v) l =
        max u (List.foldl (fun acc m => max acc (w m)) v l) := by
  intro l
  induction l with
  | nil => intro u v; rfl
  | cons m l ih =>
    intro u v
    show List.foldl _ (max (max u v) (w m)) l = _
    rw [max_assoc, ih u (max v (w m))]
    rfl

theorem foldl_max_decomp (w : Move → SearchValue) (l : List Move) (u : SearchValue) :
    List.foldl (fun acc m => max acc (w m)) u l =
      max u (List.foldl (fun acc m => max acc (w m)) ⊥ l) := by
  have h := foldl_max_init w l u ⊥
  rw [max_bot_right] at h
  exact h

theorem le_foldl_max (w : Move → SearchValue) (l : List Move) (u : SearchValue) :
    u ≤ List.foldl (fun acc m => max acc (w m)) u l := by
  rw [foldl_max_decomp]
  exact le_max_left u _

theorem foldl_min_init (w : Move → SearchValue) :
    ∀ (l : List Move) (u v : SearchValue),
      List.foldl (fun acc m => min acc (w m)) (min u v) l =
        min u (List.foldl (fun acc m => min acc (w m)) v l) := by
  intro l
  induction l with
  | nil => intro u v; rfl
  | cons m l ih =>
    intro u v
    show List.foldl _ (min (min u v) (w m)) l = _
    rw [min_assoc, ih u (min v (w m))]
    rfl

theorem foldl_min_decomp (w : Move → SearchValue) (l : List Move) (u : SearchValue) :
    List.foldl (fun acc m => min acc (w m)) u l =
      min u (List.foldl (fun acc m => min acc (w m)) ⊤ l) := by
  have h := foldl_min_init w l u ⊤
  rw [min_top_right] at h
  exact h

theorem foldl_min_le (w : Move → SearchValue) (l : List Move) (u : SearchValue) :
    List.foldl (fun acc m => min acc (w m)) u l ≤ u := by
  rw [foldl_min_decomp]
  exact min_le_left u _

theorem mmMaxLoop_fst {Pos : Type} (child : Pos → SearchValue × Move)
    (fc : Pos → Move → Pos) (pos : Pos) :
    ∀ (ms : List Move) (u : SearchValue) (best : Move),
      (mmMaxLoop child fc pos ms u best).1 =
        List.foldl (fun acc m => max acc ((child (fc pos m)).1)) u ms := by
  intro ms
  induction ms with
  | nil => intro u best; rfl
  | cons m ms ih =>
    intro u best
    show (mmMaxLoop child fc pos ms _ _).1 = List.foldl _ (max u ((child (fc pos m)).1)) ms
    rw [← if_lt_max u ((child (fc pos m)).1)]
    exact ih _ _

theorem mmMinLoop_fst {Pos : Type} (child : Pos → SearchValue × Move)
    (fc : Pos → Move → Pos) (pos : Pos) :
    ∀ (ms : List Move) (u : SearchValue) (best : Move),
      (mmMinLoop child fc pos ms u best).1 =
        List.foldl (fun acc m => min acc ((child (fc pos m)).1)) u ms := by
  intro ms
  induction ms with
  | nil => intro u best; rfl
  | cons m ms ih =>
    intro u best
    show (mmMinLoop child fc pos ms _ _).1 = List.foldl _ (min u ((child (fc pos m)).1)) ms
    rw [← if_lt_min u ((child (fc pos m)).1)]
    exact ih _ _

theorem mmMaxLoop_top {Pos : Type} (child : Pos → SearchValue × Move)
    (fc : Pos → Move → Pos) (pos : Pos) :
    ∀ (ms : List Move) (best : Move),
      mmMaxLoop child fc pos ms ⊤ best = (⊤, best) := by
  intro ms
  induction ms with
  | nil => intro best; rfl
  | cons m ms ih =>
    intro best
    show mmMaxLoop child fc pos ms
      (if (⊤ : SearchValue) < (child (fc pos m)).1 then (child (fc pos m)).1 else ⊤)
      (if (⊤ : SearchValue) < (child (fc pos m)).1 then m else best) = (⊤, best)
    rw [if_neg (not_top_lt), if_neg (not_top_lt)]
    exact ih best

theorem mmMinLoop_bot {Pos : Type} (child : Pos → SearchValue × Move)
    (fc : Pos → Move → Pos) (pos : Pos) :
    ∀ (ms : List Move) (best : Move),
      mmMinLoop child fc pos ms ⊥ best = (⊥, best) := by
  intro ms
  induction ms with
  | nil => intro best; rfl
  | cons m ms ih =>
    intro best
    show mmMinLoop child fc pos ms
      (if (child (fc pos m)).1 < (⊥ : SearchValue) then (child (fc pos m)).1 else ⊥)
      (if (child (fc pos m)).1 < (⊥ : SearchValue) then m else best) = (⊥, best)
    rw [if_neg (not_lt_bot), if_neg (not_lt_bot)]
    exact ih best

theorem maxLoop_ge {Pos : Type}
    (child : Pos → Option SearchValue → Option SearchValue → SearchValue × Move)
    (fc : Pos → Move → Pos) (pos : Pos) :
    ∀ (ms : List Move) (u : SearchValue) (best : Move) (a b : SearchValue),
      u ≤ (maxLoop child fc pos ms u best (some a) (some b)).1 := by
  intro ms
  induction ms with
  | nil => intro u best a b; exact le_refl u
  | cons m ms ih =>
    intro u best a b
    have hle : u ≤ (if u < (child (fc pos m) (some a) (some b)).1 then
        (child (fc pos m) (some a) (some b)).1 else u) := by
      rw [if_lt_max]
      exact le_max_left _ _
    simp only [maxLoop]
    by_cases hus : u < (child (fc pos m) (some a) (some b)).1
    · rw [if_pos hus] at hle ⊢
      by_cases hcut : b ≤ (child (fc pos m) (some a) (some b)).1
      · rw [if_pos hcut]
        exact hle
      · rw [if_neg hcut]
        exact le_trans hle (ih _ _ _ _)
    · rw [if_neg hus] at hle ⊢
      by_cases hcut : b ≤ u
      · rw [if_pos hcut]
      · rw [if_neg hcut]
        exact le_trans hle (ih _ _ _ _)

theorem minLoop_le {Pos : Type}
    (child : Pos → Option SearchValue → Option SearchValue → SearchValue × Move)
    (fc : Pos → Move → Pos) (pos : Pos) :
    ∀ (ms : List Move) (u : SearchValue) (best : Move) (a b : SearchValue),
      (minLoop child fc pos ms u best (some a) (some b)).1 ≤ u := by
  intro ms
  induction ms with
  | nil => intro u best a b; exact le_refl u
  | cons m ms ih =>
    intro u best a b
    have hle : (if (child (fc pos m) (some a) (some b)).1 < u then
        (child (fc pos m) (some a) (some b)).1 else u) ≤ u := by
      rw [if_lt_min]
      exact min_le_left _ _
    simp only [minLoop]
    by_cases hus : (child (fc pos m) (some a) (some b)).1 < u
    · rw [if_pos hus] at hle ⊢
      by_cases hcut : (child (fc pos m) (some a) (some b)).1 ≤ a
      · rw [if_pos hcut]
        exact hle
      · rw [if_neg hcut]
        exact le_trans (ih _ _ _ _) hle
    · rw [if_neg hus] at hle ⊢
      by_cases hcut : u ≤ a
      · rw [if_pos hcut]
      · rw [if_neg hcut]
        exact le_trans (ih _ _ _ _) hle

theorem maxLoop_approx {Pos : Type}
    (child : Pos → Option SearchValue → Option SearchValue → SearchValue × Move)
    (w : Pos → SearchValue) (fc : Pos → Move → Pos) (pos : Pos)
    (hchild : ∀ (p : Pos) (a b : SearchValue), a < b →
      approxOK a b (child p (some a) (some b)).1 (w p)) :
    ∀ (ms : List Move) (u : SearchValue) (best : Move) (a b : SearchValue),
      a < b → u < b →
      approxOK a b (maxLoop child fc pos ms u best (some a) (some b)).1
        (List.foldl (fun acc m => max acc (w (fc pos m))) u ms) := by
  intro ms
  induction ms with
  | nil =>
    intro u best a b hab hub
    exact ⟨fun _ => le_refl u, fun _ _ => rfl, fun _ => le_refl u⟩
  | cons m ms ih =>
    intro u best a b hab hub
    obtain ⟨hc1, hc2, hc3⟩ := hchild (fc pos m) a b hab
    simp only [maxLoop, List.foldl_cons]
    rw [if_lt_max u ((child (fc pos m) (some a) (some b)).1)]
    set s := (child (fc pos m) (some a) (some b)).1 with hs
    set v := w (fc pos m) with hv
    by_cases hcut : b ≤ max u s
    · rw [if_pos hcut]
      have husle : u ≤ s := by
        by_contra hns
        push_neg at hns
        rw [max_eq_left hns.le] at hcut
        exact absurd hcut (not_le.mpr hub)
      rw [max_eq_right husle] at hcut ⊢
      refine ⟨?_, ?_, ?_⟩
      · intro h
        exact absurd (lt_of_lt_of_le (lt_of_lt_of_le hab hcut) h) (lt_irrefl a)
      · intro _ h2
        exact absurd h2 (not_lt.mpr hcut)
      · intro _
        exact le_trans (le_trans (hc3 hcut) (le_max_right u v))
          (le_foldl_max _ ms (max u v))
    · rw [if_neg hcut]
      have hu'b : max u s < b := not_le.mp hcut
      have hsb : s < b := lt_of_le_of_lt (le_max_right u s) hu'b
      have ha'b : max a (max u s) < b := max_lt hab hu'b
      obtain ⟨i1, i2, i3⟩ := ih (max u s) (if u < s then m else best)
        (max a (max u s)) b ha'b hu'b
      have hr_ge : max u s ≤ (maxLoop child fc pos ms (max u s)
          (if u < s then m else best) (some (max a (max u s))) (some b)).1 :=
        maxLoop_ge child fc pos ms (max u s) _ _ _
      set r := (maxLoop child fc pos ms (max u s) (if u < s then m else best)
        (some (max a (max u s))) (some b)).1 with hr
      set S := List.foldl (fun acc m' => max acc (w (fc pos m'))) ⊥ ms with hS
      have hF' : List.foldl (fun acc m' => max acc (w (fc pos m'))) (max u s) ms =
          max (max u s) S := foldl_max_decomp _ ms (max u s)
      have hF : List.foldl (fun acc m' => max acc (w (fc pos m'))) (max u v) ms =
          max (max u v) S := foldl_max_decomp _ ms (max u v)
      rcases le_or_lt s a with hsa | hsa
      · have hva : v ≤ s := hc1 hsa
        refine ⟨?_, ?_, ?_⟩
        · intro h
          have hF'le : max (max u s) S ≤ r := by
            rw [← hF']
            exact i1 (le_trans h (le_max_left a (max u s)))
          have hu_r : u ≤ r := le_trans (le_trans (le_max_left u s) (le_max_left _ S)) hF'le
          have hs_r : s ≤ r := le_trans (le_trans (le_max_right u s) (le_max_left _ S)) hF'le
          have hS_r : S ≤ r := le_trans (le_max_right _ S) hF'le
          rw [hF]
          exact max_le (max_le hu_r (le_trans hva hs_r)) hS_r
        · intro h1 h2
          rcases lt_or_le (max a (max u s)) r with har | har
          · have heq : r = max (max u s) S := by
              rw [← hF']
              exact i2 har h2
            have hus_r : max u s < r := lt_of_le_of_lt (le_max_right a _) har
            have hSr : S = r := by
              rcases max_cases (max u s) S with ⟨hm, _⟩ | ⟨hm, _⟩
              · rw [hm] at heq
                exact absurd heq hus_r.ne'
              · rw [hm] at heq
                exact heq.symm
            have huv_r : max u v ≤ r :=
              max_le (le_trans (le_max_left u s) hus_r.le)
                (le_trans hva (le_trans (le_max_right u s) hus_r.le))
            rw [hF, hSr]
            exact (max_eq_right huv_r).symm
          · have hr_le : r ≤ max u s := by
              rcases max_cases a (max u s) with ⟨hm, _⟩ | ⟨hm, _⟩
              · rw [hm] at har
                exact absurd (lt_of_lt_of_le h1 har) (lt_irrefl a)
              · rw [hm] at har
                exact har
            have hr_eq : r = max u s := le_antisymm hr_le hr_ge
            have hru : r = u := by
              rcases max_cases u s with ⟨hm, _⟩ | ⟨hm, _⟩
              · rw [hr_eq, hm]
              · rw [hm] at hr_eq
                exact absurd h1 (not_lt.mpr (hr_eq ▸ hsa))
            have hF'le : max (max u s) S ≤ r := by
              rw [← hF']
              exact i1 har
            have hS_r : S ≤ r := le_trans (le_max_right _ S) hF'le
            rw [hF]
            have hle1 : max (max u v) S ≤ r :=
              max_le (max_le (le_of_eq hru.symm)
                (le_trans hva (le_trans hsa h1.le))) hS_r
            have hle2 : r ≤ max (max u v) S :=
              le_trans (le_of_eq hru) (le_trans (le_max_left u v) (le_max_left _ S))
            exact le_antisymm hle2 hle1
        · intro h
          have hrF' : r ≤ max (max u s) S := by
            rw [← hF']
            exact i3 h
          have hus_r : max u s < r := lt_of_lt_of_le hu'b h
          have hrS : r ≤ S := by
            rcases max_cases (max u s) S with ⟨hm, _⟩ | ⟨hm, _⟩
            · rw [hm] at hrF'
              exact absurd (lt_of_lt_of_le hus_r hrF') (lt_irrefl _)
            · rw [hm] at hrF'
              exact hrF'
          rw [hF]
          exact le_trans hrS (le_max_right _ _)
      · have hsv : s = v := hc2 hsa hsb
        refine ⟨?_, ?_, ?_⟩
        · intro h
          exact absurd (lt_of_lt_of_le hsa
            (le_trans (le_trans (le_max_right u s) hr_ge) h)) (lt_irrefl a)
        · intro h1 h2
          rw [← hsv]
          rcases lt_or_le (max a (max u s)) r with har | har
          · exact i2 har h2
          · have hr_le : r ≤ max u s := by
              rcases max_cases a (max u s) with ⟨hm, _⟩ | ⟨hm, _⟩
              · rw [hm] at har
                exact absurd (lt_of_lt_of_le h1 har) (lt_irrefl a)
              · rw [hm] at har
                exact har
            exact le_antisymm
              (le_trans hr_le (le_foldl_max _ ms (max u s))) (i1 har)
        · intro h
          rw [← hsv]
          exact i3 h

theorem minLoop_approx {Pos : Type}
    (child : Pos → Option SearchValue → Option SearchValue → SearchValue × Move)
    (w : Pos → SearchValue) (fc : Pos → Move → Pos) (pos : Pos)
    (hchild : ∀ (p : Pos) (a b : SearchValue), a < b →
      approxOK a b (child p (some a) (some b)).1 (w p)) :
    ∀ (ms : List Move) (u : SearchValue) (best : Move) (a b : SearchValue),
      a < b → a < u →
      approxOK a b (minLoop child fc pos ms u best (some a) (some b)).1
        (List.foldl (fun acc m => min acc (w (fc pos m))) u ms) := by
  intro ms
  induction ms with
  | nil =>
    intro u best a b hab hau
    exact ⟨fun _ => le_refl u, fun _ _ => rfl, fun _ => le_refl u⟩
  | cons m ms ih =>
    intro u best a b hab hau
    obtain ⟨hc1, hc2, hc3⟩ := hchild (fc pos m) a b hab
    simp only [minLoop, List.foldl_cons]
    rw [if_lt_min u ((child (fc pos m) (some a) (some b)).1)]
    set s := (child (fc pos m) (some a) (some b)).1 with hs
    set v := w (fc pos m) with hv
    by_cases hcut : min u s ≤ a
    · rw [if_pos hcut]
      have hsle : s ≤ u := by
        by_contra hns
        push_neg at hns
        rw [min_eq_left hns.le] at hcut
        exact absurd hcut (not_le.mpr hau)
      rw [min_eq_right hsle] at hcut ⊢
      refine ⟨?_, ?_, ?_⟩
      · intro _
        exact le_trans (foldl_min_le _ ms (min u v))
          (le_trans (min_le_right u v) (hc1 hcut))
      · intro h1 _
        exact absurd h1 (not_lt.mpr hcut)
      · intro h
        exact absurd (lt_of_le_of_lt (le_trans h hcut) hab) (lt_irrefl b)
    · rw [if_neg hcut]
      have hu'a : a < min u s := not_le.mp hcut
      have hsa : a < s := lt_of_lt_of_le hu'a (min_le_right u s)
      have hab' : a < min b (min u s) := lt_min hab hu'a
      obtain ⟨i1, i2, i3⟩ := ih (min u s) (if s < u then m else best) a
        (min b (min u s)) hab' hu'a
      have hr_le : (minLoop child fc pos ms (min u s)
          (if s < u then m else best) (some a) (some (min b (min u s)))).1 ≤ min u s :=
        minLoop_le child fc pos ms (min u s) _ _ _
      set r := (minLoop child fc pos ms (min u s) (if s < u then m else best)
        (some a) (some (min b (min u s)))).1 with hr
      set S := List.foldl (fun acc m' => min acc (w (fc pos m'))) ⊤ ms with hS
      have hF' : List.foldl (fun acc m' => min acc (w (fc pos m'))) (min u s) ms =
          min (min u s) S := foldl_min_decomp _ ms (min u s)
      have hF : List.foldl (fun acc m' => min acc (w (fc pos m'))) (min u v) ms =
          min (min u v) S := foldl_min_decomp _ ms (min u v)
      rcases le_or_lt b s with hbs | hsb'
      · have hva : s ≤ v := hc3 hbs
        refine ⟨?_, ?_, ?_⟩
        · intro h
          have hF'r : min (min u s) S ≤ r := by
            rw [← hF']
            exact i1 h
          have hus_r : r < min u s := lt_of_le_of_lt h hu'a
          have hSr : S ≤ r := by
            rcases min_cases (min u s) S with ⟨hm, _⟩ | ⟨hm, _⟩
            · rw [hm] at hF'r
              exact absurd hF'r (not_le.mpr hus_r)
            · rw [hm] at hF'r
              exact hF'r
          rw [hF]
          exact le_trans (min_le_right _ S) hSr
        · intro h1 h2
          rcases lt_or_le r (min b (min u s)) with hlt | hge
          · have heq : r = min (min u s) S := by
              rw [← hF']
              exact i2 h1 hlt
            have hus_r : r < min u s := lt_of_lt_of_le hlt (min_le_right b _)
            have hSr : S = r := by
              rcases min_cases (min u s) S with ⟨hm, _⟩ | ⟨hm, _⟩
              · rw [hm] at heq
                exact absurd heq hus_r.ne
              · rw [hm] at heq
                exact heq.symm
            have huv_r : r ≤ min u v :=
              le_min (le_trans hus_r.le (min_le_left u s))
                (le_trans hus_r.le (le_trans (min_le_right u s) hva))
            rw [hF, hSr]
            exact (min_eq_right huv_r).symm
          · have hbr : r = min u s := by
              rcases min_cases b (min u s) with ⟨hm, _⟩ | ⟨hm, _⟩
              · rw [hm] at hge
                exact absurd (lt_of_le_of_lt hge h2) (lt_irrefl b)
              · rw [hm] at hge
                exact le_antisymm hr_le hge
            have hru : r = u := by
              rcases min_cases u s with ⟨hm, _⟩ | ⟨hm, _⟩
              · rw [hbr, hm]
              · rw [hm] at hbr
                exact absurd (lt_of_lt_of_le h2 hbs)
                  (by rw [← hbr]; exact lt_irrefl r)
            have hrF' : r ≤ min (min u s) S := by
              rw [← hF']
              exact i3 hge
            have hS_r : r ≤ S := le_trans hrF' (min_le_right _ S)
            rw [hF]
            have hle2 : min (min u v) S ≤ r :=
              le_trans (min_le_left _ S)
                (le_trans (min_le_left u v) (le_of_eq hru.symm))
            have hle1 : r ≤ min (min u v) S :=
              le_min (le_min (le_of_eq hru)
                (le_trans h2.le (le_trans hbs hva))) hS_r
            exact le_antisymm hle1 hle2
        · intro h
          have hrF' : r ≤ min (min u s) S := by
            rw [← hF']
            exact i3 (le_trans (min_le_left b _) h)
          have hr_us : r ≤ min u s := le_trans hrF' (min_le_left _ S)
          rw [hF]
          exact le_min (le_min (le_trans hr_us (min_le_left u s))
              (le_trans (le_trans hr_us (min_le_right u s)) hva))
            (le_trans hrF' (min_le_right _ S))
      · have hsv : s = v := hc2 hsa hsb'
        refine ⟨?_, ?_, ?_⟩
        · intro h
          rw [← hsv]
          exact i1 h
        · intro h1 h2
          rw [← hsv]
          rcases lt_or_le r (min b (min u s)) with hlt | hge
          · exact i2 h1 hlt
          · have hbr : r = min u s := by
              rcases min_cases b (min u s) with ⟨hm, _⟩ | ⟨hm, _⟩
              · rw [hm] at hge
                exact absurd (lt_of_le_of_lt hge h2) (lt_irrefl b)
              · rw [hm] at hge
                exact le_antisymm hr_le hge
            exact le_antisymm (i3 hge)
              (by rw [hbr]; exact foldl_min_le _ ms (min u s))
        · intro h
          rw [← hsv]
          exact i3 (le_trans (min_le_left b _) h)

section ApproxNode

variable {Pos Player : Type} (B : Board Pos Player) (self : Player)
variable (score : Pos → Player → SearchValue)

/-- Fail-soft correctness of the windowed search at every node: inside its
window the bounded search computes the exhaustive minimax value exactly, and
outside it a one-sided bound. -/
theorem search_approx : ∀ (d : Nat),
    (∀ (pos : Pos) (a b : SearchValue), a < b →
      approxOK a b (max_value B self score pos d (some a) (some b)).1
        (mm_max B self score pos d).1) ∧
    (∀ (pos : Pos) (a b : SearchValue), a < b →
      approxOK a b (min_value B self score pos d (some a) (some b)).1
        (mm_min B self score pos d).1) := by
  intro d
  induction d with
  | zero =>
    constructor <;> intro pos a b hab <;>
      exact ⟨fun _ => le_refl _, fun _ _ => rfl, fun _ => le_refl _⟩
  | succ d ih =>
    constructor
    · intro pos a b hab
      have hML := maxLoop_approx (fun p a' b' => min_value B self score p d a' b')
        (fun p => (mm_min B self score p d).1) B.forecast_move pos
        (fun p a' b' hab' => ih.2 p a' b' hab')
        (B.get_legal_moves pos self) ⊥ noMove a b hab (lt_of_le_of_lt bot_le hab)
      have hfold : (mm_max B self score pos (d + 1)).1 =
          List.foldl (fun acc m =>
            max acc ((mm_min B self score (B.forecast_move pos m) d).1)) ⊥
            (B.get_legal_moves pos self) :=
        mmMaxLoop_fst (fun p => mm_min B self score p d) B.forecast_move pos
          (B.get_legal_moves pos self) ⊥ noMove
      rw [hfold]
      exact hML
    · intro pos a b hab
      have hML := minLoop_approx (fun p a' b' => max_value B self score p d a' b')
        (fun p => (mm_max B self score p d).1) B.forecast_move pos
        (fun p a' b' hab' => ih.1 p a' b' hab')
        (B.get_legal_moves pos (B.get_opponent self)) ⊤ noMove a b hab
        (lt_of_lt_of_le hab le_top)
      have hfold : (mm_min B self score pos (d + 1)).1 =
          List.foldl (fun acc m =>
            min acc ((mm_max B self score (B.forecast_move pos m) d).1)) ⊤
            (B.get_legal_moves pos (B.get_opponent self)) :=
        mmMinLoop_fst (fun p => mm_max B self score p d) B.forecast_move pos
          (B.get_legal_moves pos (B.get_opponent self)) ⊤ noMove
      rw [hfold]
      exact hML

/-- At the full window the maximizing loop agrees with the exhaustive loop
exactly — value and move — provided its alpha equals its running utility. -/
theorem maxLoop_root (d : Nat) (pos : Pos) :
    ∀ (ms : List Move) (u : SearchValue) (best : Move), u < ⊤ →
      maxLoop (fun p a' b' => min_value B self score p d a' b') B.forecast_move pos
        ms u best (some u) (some ⊤) =
      mmMaxLoop (fun p => mm_min B self score p d) B.forecast_move pos ms u best := by
  intro ms
  induction ms with
  | nil => intro u best _; rfl
  | cons m ms ih =>
    intro u best hu
    obtain ⟨hc1, hc2, hc3⟩ := (search_approx B self score d).2
      (B.forecast_move pos m) u ⊤ hu
    simp only [maxLoop, mmMaxLoop]
    set s := (min_value B self score (B.forecast_move pos m) d (some u) (some ⊤)).1 with hs
    set v := (mm_min B self score (B.forecast_move pos m) d).1 with hv
    rcases le_or_lt s u with hsu | hus
    · have hvu : v ≤ u := le_trans (hc1 hsu) hsu
      rw [if_neg (not_lt.mpr hsu), if_neg (not_lt.mpr hsu),
        if_neg (not_lt.mpr hvu), if_neg (not_lt.mpr hvu)]
      rw [if_neg (not_le.mpr hu), max_self]
      exact ih u best hu
    · rcases lt_or_le s ⊤ with hst | hts
      · have hsv : s = v := hc2 hus hst
        rw [if_pos hus, if_pos hus, ← hsv, if_pos hus, if_pos hus]
        rw [if_neg (not_le.mpr hst), max_eq_right hus.le]
        exact ih s m hst
      · have hstop : s = ⊤ := le_antisymm le_top hts
        have hvtop : v = ⊤ := le_antisymm le_top (hstop ▸ hc3 hts)
        have husv : u < v := hvtop ▸ hu
        rw [if_pos hus, if_pos hus, if_pos husv, if_pos husv]
        rw [if_pos hts]
        rw [hstop, hvtop]
        exact (mmMaxLoop_top (fun p => mm_min B self score p d)
          B.forecast_move pos ms m).symm

/-- Dual of `maxLoop_root` for the minimizing loop at the full window. -/
theorem minLoop_root (d : Nat) (pos : Pos) :
    ∀ (ms : List Move) (u : SearchValue) (best : Move), ⊥ < u →
      minLoop (fun p a' b' => max_value B self score p d a' b') B.forecast_move pos
        ms u best (some ⊥) (some u) =
      mmMinLoop (fun p => mm_max B self score p d) B.forecast_move pos ms u best := by
  intro ms
  induction ms with
  | nil => intro u best _; rfl
  | cons m ms ih =>
    intro u best hu
    obtain ⟨hc1, hc2, hc3⟩ := (search_approx B self score d).1
      (B.forecast_move pos m) ⊥ u hu
    simp only [minLoop, mmMinLoop]
    set s := (max_value B self score (B.forecast_move pos m) d (some ⊥) (some u)).1 with hs
    set v := (mm_max B self score (B.forecast_move pos m) d).1 with hv
    rcases le_or_lt u s with hsu | hus
    · have hvu : u ≤ v := le_trans hsu (hc3 hsu)
      rw [if_neg (not_lt.mpr hsu), if_neg (not_lt.mpr hsu),
        if_neg (not_lt.mpr hvu), if_neg (not_lt.mpr hvu)]
      rw [if_neg (not_le.mpr hu), min_self]
      exact ih u best hu
    · rcases lt_or_le (⊥ : SearchValue) s with hst | hts
      · have hsv : s = v := hc2 hst hus
        rw [if_pos hus, if_pos hus, ← hsv, if_pos hus, if_pos hus]
        rw [if_neg (not_le.mpr hst), min_eq_right hus.le]
        exact ih s m hst
      · have hsbot : s = ⊥ := le_antisymm hts bot_le
        have hvbot : v = ⊥ := le_antisymm (hsbot ▸ hc1 hts) bot_le
        have husv : v < u := hvbot ▸ hu
        rw [if_pos hus, if_pos hus, if_pos husv, if_pos husv]
        rw [if_pos hts]
        rw [hsbot, hvbot]
        exact (mmMinLoop_bot (fun p => mm_max B self score p d)
          B.forecast_move pos ms m).symm

end ApproxNode

/-- At the full window `(-∞, +∞)` the bounded search equals the exhaustive
minimax, value and move. -/
theorem search_full_window_eq_mm {Pos Player : Type} (B : Board Pos Player)
    (self : Player) (score : Pos → Player → SearchValue) :
    ∀ (d : Nat) (pos : Pos),
      max_value B self score pos d (some ⊥) (some ⊤) = mm_max B self score pos d ∧
      min_value B self score pos d (some ⊥) (some ⊤) = mm_min B self score pos d := by
  intro d pos
  constructor
  · rcases d with _ | d
    · rfl
    · exact maxLoop_root B self score d pos (B.get_legal_moves pos self) ⊥ noMove
        bot_lt_top
  · rcases d with _ | d
    · rfl
    · exact minLoop_root B self score d pos
        (B.get_legal_moves pos (B.get_opponent self)) ⊤ noMove bot_lt_top

/-- C1: `alphabeta` at its initial bounds `(-∞, +∞)` returns exactly the same
`(value, move)` pair as `minimax` with bounds absent, on every board, every
position, every depth and for both orientations of the root. -/
theorem C1_alphabeta_eq_minimax :
    ∀ (Pos Player : Type) (B : Board Pos Player) (self : Player)
      (score : Pos → Player → SearchValue) (pos : Pos) (d : Nat)
      (maximizing_player : Bool),
      alphabeta B self score pos d maximizing_player =
        minimax B self score pos d maximizing_player := by
  intro Pos Player B self score pos d mz
  cases mz
  · simp only [alphabeta, minimax, Bool.false_eq_true, if_false]
    exact ((search_full_window_eq_mm B self score d pos).2).trans
      ((search_none_eq_mm B self score d pos).2).symm
  · simp only [alphabeta, minimax, if_true]
    exact ((search_full_window_eq_mm B self score d pos).1).trans
      ((search_none_eq_mm B self score d pos).1).symm
